import Mathlib

/-!
Verification of the musashi PR review engine core.

JavaScript strings are embedded as `List Char`; the JS functions of
`src/llm/analyzer.ts`, `src/github/comments.ts` and the historical
variants in `src/unnamed/part_004` / `src/unnamed/part_005` are
translated into structurally recursive Lean definitions so that all
closed instances evaluate inside the kernel.
-/

namespace Musashi

/-- Embed a Lean string literal as the `List Char` representation of a JS string. -/
def S (s : String) : List Char := s.toList

/-- Whitespace test used by `String.prototype.trim` (restricted to the ASCII
whitespace characters that can occur in the diffs handled here). -/
def isWsChar (c : Char) : Bool := c = ' ' || c = '\t' || c = '\n' || c = '\r'

/-- JS `s.trim()`. -/
def trimWs (s : List Char) : List Char :=
  ((s.dropWhile isWsChar).reverse.dropWhile isWsChar).reverse

/-- `lineStartsWith c l` is JS `l.startsWith(c)` for a one-character needle. -/
def lineStartsWith (c : Char) (l : List Char) : Bool :=
  match l with
  | d :: _ => d = c
  | [] => false

/-- JS `line.startsWith("@@")`. -/
def startsAtAt (l : List Char) : Bool :=
  match l with
  | x :: y :: _ => x = '@' && y = '@'
  | _ => false

/-- Fuel-indexed worker for JS `String.prototype.split` with a non-empty
separator: scan left to right, cut at each occurrence of `sep`, jump past it.
The fuel is only a termination device; `splitOnListF_fuel_irrel` shows any
fuel at least the length of the input yields the same value. -/
def splitOnListF (sep : List Char) (fuel : Nat) (s : List Char) : List (List Char) :=
  match s, fuel with
  | [], _ => [[]]
  | s, 0 => [s]
  | c :: rest, Nat.succ fuel =>
    if sep.isPrefixOf (c :: rest) then
      [] :: splitOnListF sep fuel ((c :: rest).drop sep.length)
    else
      match splitOnListF sep fuel rest with
      | [] => [[c]]
      | p :: ps => (c :: p) :: ps

/-- JS `s.split(sep)` for a non-empty separator string. -/
def splitOnList (sep : List Char) (s : List Char) : List (List Char) :=
  splitOnListF sep s.length s

/-- Prepend a character onto the first piece of a split result. -/
def consHead (c : Char) : List (List Char) → List (List Char)
  | [] => [[c]]
  | p :: ps => (c :: p) :: ps

/-- `occurs needle s` decides whether `needle` occurs as a contiguous substring
of `s` (the scan a JS regex or `split` performs). -/
def occurs (needle : List Char) : List Char → Bool
  | [] => needle.isPrefixOf []
  | c :: rest => needle.isPrefixOf (c :: rest) || occurs needle rest

/-! ## Glob matching

The implementation delegates path matching to the external `micromatch`
library, which is not part of this repository.  Modelled from the spec:
"Matching uses standard glob semantics: `*` matches within a path segment,
`**` matches across segments, literal paths match exactly" (§4.3).  `?`
matches a single non-separator character. -/

/-- Fuel-indexed glob matcher (fuel is a termination device only; the
initial fuel in `globMatch` always suffices). -/
def globMatchF : Nat → List Char → List Char → Bool
  | 0, _, _ => false
  | Nat.succ fuel, pat, s =>
    match pat, s with
    | [], [] => true
    | [], _ :: _ => false
    | '*' :: '*' :: ps, s =>
      globMatchF fuel ps s ||
        (match s with
         | [] => false
         | _ :: r => globMatchF fuel ('*' :: '*' :: ps) r)
    | '*' :: ps, s =>
      globMatchF fuel ps s ||
        (match s with
         | [] => false
         | c :: r => c != '/' && globMatchF fuel ('*' :: ps) r)
    | '?' :: ps, c :: r => c != '/' && globMatchF fuel ps r
    | '?' :: _, [] => false
    | c :: ps, d :: r => c == d && globMatchF fuel ps r
    | _ :: _, [] => false

/-- Modelled from the spec: glob match of one pattern against a path. -/
def globMatch (pat path : List Char) : Bool :=
  globMatchF (pat.length + path.length + 1) pat path

/-- Modelled from the spec: `micromatch.isMatch(path, patterns)` — true when
any pattern of the list glob-matches the path. -/
def isMatch (path : List Char) (patterns : List (List Char)) : Bool :=
  patterns.any (fun pat => globMatch pat path)

/-! ## The diff pre-filter (`filterDiffByExcludePatterns`, analyzer.ts 104–140) -/

/-- The section delimiter `"diff --git "`. -/
def sepGit : List Char := S "diff --git "

/-- The path marker `"diff --git a/"` searched by the path-extraction regex. -/
def markerA : List Char := S "diff --git a/"

/-- The `" b/"` terminator of the lazily captured path. -/
def bMarker : List Char := S " b/"

/-- Lazy capture of `(.*?)` up to the first `" b/"`: succeeds with the shortest
run of non-line-terminator characters followed by `" b/"`. -/
def pathCapture : List Char → Option (List Char)
  | [] => none
  | c :: rest =>
    if bMarker.isPrefixOf (c :: rest) then some []
    else if c = '\n' || c = '\r' then none
    else
      match pathCapture rest with
      | some p => some (c :: p)
      | none => none

/-- The unanchored search `section.match(/diff --git a\/(.*?) b\//)`: try the
pattern at every start position, left to right, and return the first capture. -/
def extractFilePath : List Char → Option (List Char)
  | [] => none
  | c :: rest =>
    match (if markerA.isPrefixOf (c :: rest)
           then pathCapture ((c :: rest).drop markerA.length)
           else none) with
    | some p => some p
    | none => extractFilePath rest

/-- The body of the `for (const section of sectionsToProcess)` loop of
`filterDiffByExcludePatterns`: returns the pushed processed section, or
`none` when the loop `continue`s. -/
def keepSection (diff : List Char) (excludePatterns : List (List Char))
    (firstSection : List Char) (sec : List Char) : Option (List Char) :=
  if trimWs sec = [] then none
  else
    let processedSection :=
      if sec = firstSection ∧ sepGit.isPrefixOf diff = false
      then sec
      else sepGit ++ sec
    match extractFilePath processedSection with
    | none => none
    | some filePath =>
      if isMatch filePath excludePatterns then none else some processedSection

/-- `filterDiffByExcludePatterns` (analyzer.ts 104–140): split the diff on
`"diff --git "`, drop the leading empty piece, keep each non-blank section
whose extracted path does not match an exclusion pattern, and join. -/
def filterDiffByExcludePatterns (diff : List Char)
    (excludePatterns : List (List Char)) : List Char :=
  let diffSections := splitOnList sepGit diff
  let firstSection := diffSections.headD []
  let sectionsToProcess :=
    if firstSection = [] then diffSections.drop 1 else diffSections
  (sectionsToProcess.filterMap (keepSection diff excludePatterns firstSection)).flatten

/-! ## Hunk-header parsing

Two regexes occur in the sources: the annotator's anchored
`/^@@ -(\d+),?\d* \+(\d+),?\d* @@/` and the resolvers' unanchored
`/@@ -\d+(?:,\d+)? \+(\d+)(?:,\d+)? @@/`.  Both are deterministic on their
inputs (backtracking can never rescue a failed greedy parse, because the
characters that follow the optional group are fixed), so they are
translated as straight-line parsers. -/

/-- Value of a non-empty digit run (the effect of `parseInt(digits, 10)`). -/
def digitsToNat (ds : List Char) : Nat :=
  ds.foldl (fun a c => a * 10 + (c.toNat - '0'.toNat)) 0

/-- `,?\d*` after a greedy `\d+`: an optional comma followed by a greedy
digit run (without a comma no digit can follow the previous greedy run). -/
def afterCountOpt (s : List Char) : List Char :=
  match s with
  | ',' :: r => r.dropWhile (·.isDigit)
  | _ => s

/-- `(?:,\d+)?` after a greedy `\d+`: consumed only when a comma and at
least one digit are present. -/
def afterCountOptStrict (s : List Char) : List Char :=
  match s with
  | ',' :: r => if (r.headD 'x').isDigit then ',' :: r |>.tail.dropWhile (·.isDigit) else ',' :: r
  | _ => s

/-- The annotator's anchored hunk-header regex
`/^@@ -(\d+),?\d* \+(\d+),?\d* @@/` (analyzer.ts 447), returning the two
captures `(oldStart, newStart)`. -/
def parseHunkHeaderA (line : List Char) : Option (Nat × Nat) :=
  match line with
  | '@' :: '@' :: ' ' :: '-' :: r =>
    match r.span (·.isDigit) with
    | (d1, r1) =>
      if d1 = [] then none
      else
        match afterCountOpt r1 with
        | ' ' :: '+' :: r3 =>
          match r3.span (·.isDigit) with
          | (d2, r4) =>
            if d2 = [] then none
            else
              match afterCountOpt r4 with
              | ' ' :: '@' :: '@' :: _ => some (digitsToNat d1, digitsToNat d2)
              | _ => none
        | _ => none
  | _ => none

/-- The resolvers' hunk-header pattern
`@@ -\d+(?:,\d+)? \+(\d+)(?:,\d+)? @@` applied at one start position,
returning the single capture (the new-file start). -/
def parseHunkAt45 (s : List Char) : Option Nat :=
  match s with
  | '@' :: '@' :: ' ' :: '-' :: r =>
    match r.span (·.isDigit) with
    | (d1, r1) =>
      if d1 = [] then none
      else
        match afterCountOptStrict r1 with
        | ' ' :: '+' :: r3 =>
          match r3.span (·.isDigit) with
          | (d2, r4) =>
            if d2 = [] then none
            else
              match afterCountOptStrict r4 with
              | ' ' :: '@' :: '@' :: _ => some (digitsToNat d2)
              | _ => none
        | _ => none
  | _ => none

/-- Unanchored `line.match(...)` search: try the pattern at each start
position, left to right. -/
def searchHunkNewStart : List Char → Option Nat
  | [] => none
  | c :: rest =>
    match parseHunkAt45 (c :: rest) with
    | some n => some n
    | none => searchHunkNewStart rest

/-! ## The line annotator (`formatDiffWithLineNumbers`, analyzer.ts 439–468) -/

/-- The newline separator of `diff.split("\n")`. -/
def nlSep : List Char := ['\n']

/-- Decimal rendering of a counter, as interpolated by `${oldLine}`. -/
def natChars (n : Nat) : List Char := Nat.toDigits 10 n

/-- One annotated output line `<marker>[<n>] <rest>`. -/
def annotateLine (marker : Char) (n : Nat) (restL : List Char) : List Char :=
  marker :: '[' :: (natChars n ++ (']' :: ' ' :: restL))

/-- One iteration of the annotator's `for (const line of lines)` loop over the
state `(result, oldLine, newLine)`. -/
def formatStep (st : List (List Char) × Nat × Nat) (line : List Char) :
    List (List Char) × Nat × Nat :=
  match st with
  | (res, oldLine, newLine) =>
    match parseHunkHeaderA line with
    | some (o, n) => (res, o, n)
    | none =>
      if lineStartsWith ' ' line then
        (res ++ [annotateLine ' ' oldLine (line.drop 1)], oldLine + 1, newLine + 1)
      else if lineStartsWith '-' line then
        (res ++ [annotateLine '-' oldLine (line.drop 1)], oldLine + 1, newLine)
      else if lineStartsWith '+' line then
        (res ++ [annotateLine '+' newLine (line.drop 1)], oldLine, newLine + 1)
      else (res, oldLine, newLine)

/-- `formatDiffWithLineNumbers` (analyzer.ts 439–468). -/
def formatDiffWithLineNumbers (diff : List Char) : List Char :=
  List.intercalate nlSep ((splitOnList nlSep diff).foldl formatStep ([], 0, 0)).1

/-! ## Position resolution -/

/-- The side of a review comment (`"LEFT"` / `"RIGHT"`). -/
inductive Side where
  | LEFT
  | RIGHT
deriving DecidableEq

/-- Loop of `findPositionInDiff` (src/github/comments.ts 90–111): a single
running counter over context/addition lines, never reset, and a physical
position counter over every patch line. -/
def findPositionLoop (targetLine : Int) :
    List (List Char) → Int → Int → Option Int
  | [], _, _ => none
  | line :: rest, currentLine, position =>
    let position := position + 1
    if lineStartsWith '+' line || lineStartsWith ' ' line then
      let currentLine := currentLine + 1
      if currentLine = targetLine then some position
      else findPositionLoop targetLine rest currentLine position
    else findPositionLoop targetLine rest currentLine position

/-- `findPositionInDiff` (src/github/comments.ts 90–111).  `none` patch or the
falsy empty patch returns `null`. -/
def findPositionInDiff (patch : Option (List Char)) (targetLine : Int) : Option Int :=
  match patch with
  | none => none
  | some p =>
    if p = [] then none
    else findPositionLoop targetLine (splitOnList nlSep p) 0 0

/-- Loop of `getLineInfoFromDiff` (src/unnamed/part_005 386–422): counter reset
to `newStart - 1` at each recognized hunk header, context/addition lines
counted, result `(i + 1, RIGHT)`. -/
def getLineInfoLoopP5 (targetLine : Int) :
    List (List Char) → Int → Int → Option (Int × Side)
  | [], _, _ => none
  | line :: rest, i, currentLine =>
    if startsAtAt line then
      match searchHunkNewStart line with
      | some newStart => getLineInfoLoopP5 targetLine rest (i + 1) (newStart - 1)
      | none => getLineInfoLoopP5 targetLine rest (i + 1) currentLine
    else if lineStartsWith '+' line || lineStartsWith ' ' line then
      let currentLine := currentLine + 1
      if currentLine = targetLine then some (i + 1, Side.RIGHT)
      else getLineInfoLoopP5 targetLine rest (i + 1) currentLine
    else getLineInfoLoopP5 targetLine rest (i + 1) currentLine

/-- `getLineInfoFromDiff` of src/unnamed/part_005 (lines 386–422). -/
def getLineInfoFromDiffP5 (patch : Option (List Char)) (targetLine : Int) :
    Option (Int × Side) :=
  match patch with
  | none => none
  | some p =>
    if p = [] then none
    else getLineInfoLoopP5 targetLine (splitOnList nlSep p) 0 0

/-- Loop of `getLineInfoFromDiff` (src/unnamed/part_004 88–122): like the
part_005 loop but deletion lines are counted as well, with side `LEFT` for a
deletion and `RIGHT` otherwise. -/
def getLineInfoLoopP4 (targetLine : Int) :
    List (List Char) → Int → Int → Option (Int × Side)
  | [], _, _ => none
  | line :: rest, i, currentLine =>
    if startsAtAt line then
      match searchHunkNewStart line with
      | some newStart => getLineInfoLoopP4 targetLine rest (i + 1) (newStart - 1)
      | none => getLineInfoLoopP4 targetLine rest (i + 1) currentLine
    else if lineStartsWith '+' line || lineStartsWith '-' line ||
        lineStartsWith ' ' line then
      let currentLine := currentLine + 1
      if currentLine = targetLine then
        some (i + 1, if lineStartsWith '-' line then Side.LEFT else Side.RIGHT)
      else getLineInfoLoopP4 targetLine rest (i + 1) currentLine
    else getLineInfoLoopP4 targetLine rest (i + 1) currentLine

/-- `getLineInfoFromDiff` of src/unnamed/part_004 (lines 88–122). -/
def getLineInfoFromDiffP4 (patch : Option (List Char)) (targetLine : Int) :
    Option (Int × Side) :=
  match patch with
  | none => none
  | some p =>
    if p = [] then none
    else getLineInfoLoopP4 targetLine (splitOnList nlSep p) 0 0

/-- Modelled from the spec (§4.5): the walking algorithm.  Walk the patch line
by line carrying the 1-based position of the current physical line; on a hunk
header (a line beginning `@@` in which the numeric header pattern is
recognized) reset the running new-file counter to the header's new-start
value minus one; for every context or addition line increment the counter and
compare it to the target; on the first match return the position of that
physical line, paired with side `RIGHT`. -/
def specWalk (targetLine : Int) :
    List (List Char) → Int → Int → Option (Int × Side)
  | [], _, _ => none
  | line :: rest, pos, counter =>
    match (if startsAtAt line then searchHunkNewStart line else none) with
    | some newStart => specWalk targetLine rest (pos + 1) (newStart - 1)
    | none =>
      if lineStartsWith ' ' line || lineStartsWith '+' line then
        if counter + 1 = targetLine then some (pos, Side.RIGHT)
        else specWalk targetLine rest (pos + 1) (counter + 1)
      else specWalk targetLine rest (pos + 1) counter

/-- Modelled from the spec (§4.5): the position resolver as specified, over a
patch text. -/
def specResolver (patch : List Char) (targetLine : Int) : Option (Int × Side) :=
  specWalk targetLine (splitOnList nlSep patch) 1 0

/-! ## Runtime JSON values and the comment validator (`parseResponse`,
analyzer.ts 348–437)

`JSON.parse` is a JavaScript builtin, external to this repository; it is
passed in as a function `jsonParse` producing either a parsed value or the
thrown error's message.  Property access on a JSON value is total except on
`null`, where it raises a `TypeError` (caught by the function's outer
`try`/`catch`). -/

/-- Runtime JSON values (numbers restricted to integers; no claim here
depends on non-integral numerics). -/
inductive JsValue where
  | null
  | bool (b : Bool)
  | num (n : Int)
  | str (s : List Char)
  | arr (elems : List JsValue)
  | obj (fields : List (List Char × JsValue))

/-- JS truthiness of a value. -/
def truthy : JsValue → Bool
  | .null => false
  | .bool b => b
  | .num n => n != 0
  | .str s => !s.isEmpty
  | .arr _ => true
  | .obj _ => true

/-- JS truthiness of a possibly-undefined value (`none` = `undefined`). -/
def truthyOpt : Option JsValue → Bool
  | none => false
  | some v => truthy v

/-- Object-field lookup; later duplicate keys overwrite earlier ones, as in
a parsed JSON object. -/
def lookupField (fields : List (List Char × JsValue)) (key : List Char) :
    Option JsValue :=
  match fields with
  | [] => none
  | (k, v) :: rest =>
    match lookupField rest key with
    | some w => some w
    | none => if k = key then some v else none

/-- Property access `v.key`: a `TypeError` on `null`, the field (or
`undefined`) on an object, `undefined` on any other value. -/
def getProp : JsValue → List Char → Except (List Char) (Option JsValue)
  | .null, _ => .error (S "Cannot read properties of null")
  | .obj fields, key => .ok (lookupField fields key)
  | _, _ => .ok none

/-- The `in` operator `key in v`: a `TypeError` on primitives and `null`,
key membership on an object, `false` on an array (none of the keys probed
here is an array index or `length`). -/
def hasProp : JsValue → List Char → Except (List Char) Bool
  | .obj fields, key => .ok (fields.any (fun kv => kv.1 == key))
  | .arr _, _ => .ok false
  | _, _ => .error (S "Cannot use the in operator on a non-object")

/-- Strict equality of a possibly-undefined value with a string literal. -/
def strictEqStr (v : Option JsValue) (s : List Char) : Bool :=
  match v with
  | some (.str t) => t == s
  | _ => false

/-- A validated comment as built by the `validComments.push` calls: the field
values are whatever the raw entry held (`none` = `undefined`). -/
inductive JComment where
  | line (file : Option JsValue) (lineNo : Option JsValue) (body : Option JsValue)
      (commit_id : Option JsValue)
  | pr (body : Option JsValue)

/-- The result record of `parseResponse`; `summary` is kept as a runtime
value since the source never checks that it is a string. -/
structure AnalysisResultsJ where
  comments : List JComment
  summary : JsValue

def typeKey : List Char := S "type"
def bodyKey : List Char := S "body"
def fileKey : List Char := S "file"
def lineKey : List Char := S "line"
def commitIdKey : List Char := S "commit_id"
def commentsKey : List Char := S "comments"
def summaryKey : List Char := S "summary"

/-- One iteration of the `for (const comment of parsedResponse.comments)`
loop (analyzer.ts 379–417): `none` when the entry is skipped with a warning,
an error when an access throws. -/
def validateOne (comment : JsValue) : Except (List Char) (Option JComment) := do
  let tval ← getProp comment typeKey
  if !truthyOpt tval then return none
  let bval ← getProp comment bodyKey
  if !truthyOpt bval then return none
  if strictEqStr tval (S "line") then
    let hasFile ← hasProp comment fileKey
    let hasLine ← hasProp comment lineKey
    if !hasFile || !hasLine then return none
    let fval ← getProp comment fileKey
    let lval ← getProp comment lineKey
    let bval2 ← getProp comment bodyKey
    let hasCommit ← hasProp comment commitIdKey
    let cval ← if hasCommit then getProp comment commitIdKey else pure none
    return some (.line fval lval bval2 cval)
  else if strictEqStr tval (S "pr") then
    return some (.pr bval)
  else
    return none

/-- The whole validation loop, preserving the order of accepted entries. -/
def validateComments : List JsValue → Except (List Char) (List JComment)
  | [] => .ok []
  | c :: rest => do
    let r ← validateOne c
    let others ← validateComments rest
    match r with
    | some jc => .ok (jc :: others)
    | none => .ok others

/-! ### Stripping a fenced code block

`/```(?:json)?\s*([\s\S]*?)\s*```/`: the first position with an opening
fence wins; after the fence an optional `json` tag and greedy whitespace
are skipped; the lazy capture ends at the first closing fence, with the
whitespace run before that fence absorbed by the greedy `\s*`. -/

/-- Three backticks. -/
def fence3 : List Char := S "\x60\x60\x60"

/-- `\s` of a JS regex, for the characters relevant here. -/
def isRegexWs (c : Char) : Bool := c = ' ' || c = '\t' || c = '\n' || c = '\r'

/-- Remove a trailing whitespace run (the greedy `\s*` before the closing
fence, stolen from the lazy capture). -/
def stripTrailingWs (s : List Char) : List Char :=
  (s.reverse.dropWhile isRegexWs).reverse

/-- Scan for the first closing fence; the capture is everything before it,
with trailing whitespace stripped. -/
def findCapture : List Char → Option (List Char)
  | [] => none
  | c :: rest =>
    if fence3.isPrefixOf (c :: rest) then some []
    else
      match findCapture rest with
      | some p => some (c :: p)
      | none => none

/-- Match attempt at one opening-fence position: skip the fence, an optional
`json` tag and leading whitespace, then look for the capture. -/
def fenceBody (u : List Char) : Option (List Char) :=
  let u1 := if (S "json").isPrefixOf u then u.drop 4 else u
  let t := u1.dropWhile isRegexWs
  (findCapture t).map stripTrailingWs

/-- Search the whole response for a fenced block, left to right. -/
def findFencedBlock : List Char → Option (List Char)
  | [] => none
  | c :: rest =>
    match (if fence3.isPrefixOf (c :: rest)
           then fenceBody ((c :: rest).drop 3)
           else none) with
    | some cap => some cap
    | none => findFencedBlock rest

/-- Lines 351–357: replace the response by the capture when a fenced block
with a truthy (non-empty) capture is found. -/
def stripCodeBlock (response : List Char) : List Char :=
  match findFencedBlock response with
  | some cap => if cap = [] then response else cap
  | none => response

/-- The placeholder summary. -/
def noSummaryJ : JsValue := .str (S "No summary provided")

/-- Error message of the explicit `throw` at analyzer.ts 366. -/
def invalidFormatMsg : List Char :=
  S "Invalid response format: missing or invalid comments array"

/-- The `try` body of `parseResponse` (analyzer.ts 349–422) as an `Except`
computation; any `.error` models a thrown exception reaching the `catch`. -/
def parseResponseE (jsonParse : List Char → Except (List Char) JsValue)
    (response : List Char) : Except (List Char) AnalysisResultsJ := do
  let cleanedResponse := stripCodeBlock response
  let parsed ← jsonParse cleanedResponse
  let commentsVal ← getProp parsed commentsKey
  if !truthyOpt commentsVal then throw invalidFormatMsg
  else
    match commentsVal with
    | some (.arr rawComments) =>
      let sval ← getProp parsed summaryKey
      let summaryJ :=
        match sval with
        | some v => if truthy v then v else noSummaryJ
        | none => noSummaryJ
      let validComments ← validateComments rawComments
      return ⟨validComments, summaryJ⟩
    | _ => throw invalidFormatMsg

/-- Prefix of the catch-branch summary (analyzer.ts 432). -/
def parseErrorHead : List Char := S "Error parsing LLM response: "

/-- `parseResponse` (analyzer.ts 348–437): total — every thrown error is
caught and turned into the empty-comments fallback whose summary embeds the
failure reason. -/
def parseResponse (jsonParse : List Char → Except (List Char) JsValue)
    (response : List Char) : AnalysisResultsJ :=
  match parseResponseE jsonParse response with
  | .ok results => results
  | .error msg => ⟨[], .str (parseErrorHead ++ msg)⟩

/-- The condition "the input is not parseable as JSON with a `comments`
array": the external parse throws, or its value is not an object carrying a
`comments` field whose value is an array. -/
def lacksCommentsArray (jsonParse : List Char → Except (List Char) JsValue)
    (response : List Char) : Bool :=
  match jsonParse (stripCodeBlock response) with
  | .error _ => true
  | .ok v =>
    match v with
    | .obj fields =>
      match lookupField fields commentsKey with
      | some (.arr _) => false
      | _ => true
    | _ => true

/-! ## The comment post-filter (`filterCommentsByExcludePatterns`,
analyzer.ts 145–156) -/

/-- The typed comment model of `src/types.ts`. -/
inductive CommentT where
  | line (file : List Char) (lineNo : Int) (body : List Char)
      (commit_id : Option (List Char))
  | pr (body : List Char)
deriving DecidableEq

/-- `filterCommentsByExcludePatterns` (analyzer.ts 145–156): keep every
comment whose `type` is not `"line"`; keep a line comment exactly when its
file matches no exclusion pattern. -/
def filterCommentsByExcludePatterns (comments : List CommentT)
    (excludePatterns : List (List Char)) : List CommentT :=
  comments.filter fun comment =>
    match comment with
    | .pr _ => true
    | .line file _ _ _ => !(isMatch file excludePatterns)

/-! ## Concrete scenario values -/

/-- A line comment on `docs/README.md` (End-to-end scenario 2). -/
def docsComment : CommentT := .line (S "docs/README.md") 1 (S "Tighten this heading") none

/-- A PR-level comment (End-to-end scenario 2). -/
def prLevelComment : CommentT := .pr (S "Looks good overall")

/-- A line comment on `test.js` (End-to-end scenario 2). -/
def testJsComment : CommentT := .line (S "test.js") 2 (S "Use a template literal") none

/-- A raw payload entry of type `"line"` whose `file` is the empty string
and whose `line` is `0`. -/
def lineEntryEx : List (List Char × JsValue) :=
  [(typeKey, .str (S "line")), (bodyKey, .str (S "ok")),
   (fileKey, .str []), (lineKey, .num 0)]

/-- A stand-in for `JSON.parse` that always throws. -/
def jsonParseStub : List Char → Except (List Char) JsValue :=
  fun _ => .error (S "Unexpected token")

/-! ## Shapes used by the idempotence proof -/

/-- The output shape of the pre-filter: kept sections re-prefixed and
joined. -/
def flattenBlocks (sections : List (List Char)) : List Char :=
  (sections.map (fun s => sepGit ++ s)).flatten

/-- What holds of every raw section the pre-filter keeps. -/
def keptProps (excludePatterns : List (List Char)) (s : List Char) : Prop :=
  occurs sepGit s = false ∧ trimWs s ≠ [] ∧
    ∃ path, extractFilePath (sepGit ++ s) = some path ∧
      isMatch path excludePatterns = false

/-! ## Claim theorems -/

/-! ### Supporting lemmas about `splitOnList` and `occurs` -/

theorem splitOnListF_fuel_irrel (sep : List Char) (hsep : sep ≠ []) :
    ∀ n f1 f2 s, s.length ≤ n → s.length ≤ f1 → s.length ≤ f2 →
      splitOnListF sep f1 s = splitOnListF sep f2 s := by
  intro n
  induction n with
  | zero =>
    intro f1 f2 s hn _ _
    have hs : s = [] := List.length_eq_zero.mp (Nat.le_zero.mp hn)
    subst hs
    cases f1 <;> cases f2 <;> rfl
  | succ n ih =>
    intro f1 f2 s hn h1 h2
    cases s with
    | nil => cases f1 <;> cases f2 <;> rfl
    | cons c rest =>
      have hl : (c :: rest).length = rest.length + 1 := rfl
      cases f1 with
      | zero => exact absurd h1 (by simp)
      | succ f1 =>
        cases f2 with
        | zero => exact absurd h2 (by simp)
        | succ f2 =>
          simp only [splitOnListF]
          by_cases hp : sep.isPrefixOf (c :: rest)
          · simp only [hp, if_true]
            have hslen : 1 ≤ sep.length := by
              cases sep with
              | nil => exact absurd rfl hsep
              | cons _ _ => simp
            have hdrop : ((c :: rest).drop sep.length).length ≤ rest.length := by
              simp only [List.length_drop, hl]
              omega
            have hrn : rest.length ≤ n := by
              have := hn
              simp only [hl] at this
              omega
            have h1' : ((c :: rest).drop sep.length).length ≤ f1 := by
              have := h1
              simp only [hl] at this
              omega
            have h2' : ((c :: rest).drop sep.length).length ≤ f2 := by
              have := h2
              simp only [hl] at this
              omega
            rw [ih f1 f2 _ (le_trans hdrop hrn) h1' h2']
          · simp only [hp, if_false]
            have hrn : rest.length ≤ n := by
              have := hn
              simp only [hl] at this
              omega
            have h1' : rest.length ≤ f1 := by
              have := h1
              simp only [hl] at this
              omega
            have h2' : rest.length ≤ f2 := by
              have := h2
              simp only [hl] at this
              omega
            rw [ih f1 f2 rest hrn h1' h2']
            simp

theorem splitOnList_nil (sep : List Char) : splitOnList sep [] = [[]] := rfl

theorem splitOnList_sep_append (sep : List Char) (hsep : sep ≠ []) (t : List Char) :
    splitOnList sep (sep ++ t) = [] :: splitOnList sep t := by
  cases hs : sep with
  | nil => exact absurd hs hsep
  | cons d sep' =>
    subst hs
    show splitOnListF (d :: sep') (d :: (sep' ++ t)).length (d :: (sep' ++ t)) = _
    have hlen : (d :: (sep' ++ t)).length = sep'.length + t.length + 1 := by simp
    rw [hlen]
    simp only [splitOnListF]
    have hp : (d :: sep').isPrefixOf (d :: (sep' ++ t)) := by
      rw [List.isPrefixOf_iff_prefix]
      exact ⟨t, by simp⟩
    simp only [hp, if_true]
    have hdrop : (d :: (sep' ++ t)).drop (d :: sep').length = t := by
      show (((d :: sep') ++ t).drop (d :: sep').length) = t
      exact List.drop_left _ _
    rw [hdrop]
    congr 1
    exact splitOnListF_fuel_irrel (d :: sep') hsep (sep'.length + t.length) _ _ t
      (by omega) (by omega) (by omega)

theorem splitOnList_cons_of_not_pre (sep : List Char) (hsep : sep ≠ [])
    (c : Char) (rest : List Char) (hp : ¬ sep.isPrefixOf (c :: rest)) :
    splitOnList sep (c :: rest) = consHead c (splitOnList sep rest) := by
  show splitOnListF sep (c :: rest).length (c :: rest) = _
  have hlen : (c :: rest).length = rest.length + 1 := rfl
  rw [hlen]
  simp only [splitOnListF, hp, if_false]
  have hf : splitOnListF sep rest.length rest = splitOnList sep rest := rfl
  rw [splitOnListF_fuel_irrel sep hsep rest.length rest.length rest.length rest
    (le_refl _) (le_refl _) (le_refl _), hf]
  cases splitOnList sep rest <;> rfl

theorem occurs_of_isPrefixOf {needle s : List Char} (h : needle.isPrefixOf s = true) :
    occurs needle s = true := by
  cases s with
  | nil => simpa [occurs] using h
  | cons c rest => simp [occurs, h]

theorem not_isPrefixOf_of_not_occurs {needle s : List Char} (h : occurs needle s = false) :
    needle.isPrefixOf s = false := by
  cases s with
  | nil => simpa [occurs] using h
  | cons c rest =>
    simp only [occurs, Bool.or_eq_false_iff] at h
    exact h.1

theorem occurs_tail_of_not_occurs {needle : List Char} {c : Char} {rest : List Char}
    (h : occurs needle (c :: rest) = false) : occurs needle rest = false := by
  simp only [occurs, Bool.or_eq_false_iff] at h
  exact h.2



/-- C4: annotating the diff with hunk header `@@ -1,3 +1,4 @@` and the five
body lines yields exactly the five annotated output lines, in order. -/
theorem formatDiff_scenario1 :
    formatDiffWithLineNumbers
      (S "@@ -1,3 +1,4 @@\n const a = 1;\n-const b = 2;\n+const b = 3;\n+const c = 4;\n const d = 5;") =
    S " [1] const a = 1;\n-[2] const b = 2;\n+[2] const b = 3;\n+[3] const c = 4;\n [3] const d = 5;" := by
  decide

/-- C9: file-header lines `--- a/<path>` and `+++ b/<path>` begin with `-`
resp. `+`, so the annotator emits them annotated with the current counter
and the first character stripped, and advances the old resp. new counter;
concretely a diff with such headers and no preceding hunk header renders
them as `-[0] -- a/<path>` and `+[0] ++ b/<path>`. -/
theorem formatStep_classifies_file_header_lines :
    (∀ (res : List (List Char)) (o n : Nat) (restL : List Char),
       formatStep (res, o, n) ('-' :: restL) =
         (res ++ [annotateLine '-' o restL], o + 1, n)) ∧
    (∀ (res : List (List Char)) (o n : Nat) (restL : List Char),
       formatStep (res, o, n) ('+' :: restL) =
         (res ++ [annotateLine '+' n restL], o, n + 1)) ∧
    formatDiffWithLineNumbers (S "--- a/f.js\n+++ b/f.js\n@@ -1,1 +1,1 @@\n-x\n+y") =
      S "-[0] -- a/f.js\n+[0] ++ b/f.js\n-[1] x\n+[1] y" := by
  refine ⟨?_, ?_, by decide⟩
  · intro res o n restL; rfl
  · intro res o n restL; rfl

/-- C5 counterexample: an input whose two lines are neither context,
addition, deletion nor hunk headers annotates to the empty output — the
lines are dropped, not passed through unannotated. -/
theorem formatDiff_drops_unmatched_lines :
    formatDiffWithLineNumbers (S "diff --git a/f b/f\nindex 123..456") = [] := by
  decide

/-- C5 (amended): a line that is not a hunk header and is not classified as
context, addition, or deletion is omitted from the annotator's output and
leaves the counters unchanged, while a hunk header is likewise consumed
(not emitted) and only resets the counters. -/
theorem formatStep_unmatched_omitted_header_consumed :
    (∀ (res : List (List Char)) (o n : Nat) (line : List Char),
       parseHunkHeaderA line = none →
       lineStartsWith ' ' line = false →
       lineStartsWith '-' line = false →
       lineStartsWith '+' line = false →
       formatStep (res, o, n) line = (res, o, n)) ∧
    (∀ (res : List (List Char)) (o n o2 n2 : Nat) (line : List Char),
       parseHunkHeaderA line = some (o2, n2) →
       formatStep (res, o, n) line = (res, o2, n2)) := by
  constructor
  · intro res o n line hh hsp hmn hpl
    simp [formatStep, hh, hsp, hmn, hpl]
  · intro res o n o2 n2 line hh
    simp [formatStep, hh]

/-- C5 witness: the two cases of the amended statement evaluated at the
concrete lines `"index 7"` and `"@@ -3,1 +7,2 @@"`. -/
theorem formatStep_unmatched_omitted_header_consumed_witness :
    formatStep ([], 4, 9) (S "index 7") = ([], 4, 9) ∧
    formatStep ([], 4, 9) (S "@@ -3,1 +7,2 @@") = ([], 3, 7) := by
  exact ⟨formatStep_unmatched_omitted_header_consumed.1 [] 4 9 (S "index 7")
      (by decide) (by decide) (by decide) (by decide),
    formatStep_unmatched_omitted_header_consumed.2 [] 4 9 3 7 (S "@@ -3,1 +7,2 @@")
      (by decide)⟩

/-- C3 counterexample: a non-empty diff whose single section has no
extractable `diff --git a/<path> b/` path is removed by the pre-filter even
though the pattern list is empty, contradicting "sections whose path cannot
be extracted are kept". -/
theorem filterDiff_drops_unparsable_section :
    filterDiffByExcludePatterns (S "diff --git malformed\nstuff") [] = [] ∧
    S "diff --git malformed\nstuff" ≠ [] := by
  exact ⟨by decide, by decide⟩

/-- C3 (amended): for every diff, pattern list and section, the loop body of
the pre-filter drops (returns `none` for) a section whose processed text has
no extractable `diff --git a/<path> b/` path; and among non-blank sections
with an extractable path, exactly those whose path glob-matches a pattern
are removed, the rest being pushed unchanged.  Concretely, a diff whose
single section has no extractable path filters to the empty string for
every pattern list, and a single-section diff with path `x.md` is kept
under no patterns and removed under `*.md`. -/
theorem filterDiff_path_extraction_behavior :
    (∀ (d : List Char) (p : List (List Char)) (first s : List Char),
       extractFilePath (if s = first ∧ sepGit.isPrefixOf d = false
                        then s else sepGit ++ s) = none →
       keepSection d p first s = none) ∧
    (∀ (d : List Char) (p : List (List Char)) (first s path : List Char),
       trimWs s ≠ [] →
       extractFilePath (if s = first ∧ sepGit.isPrefixOf d = false
                        then s else sepGit ++ s) = some path →
       keepSection d p first s =
         (if isMatch path p
          then none
          else some (if s = first ∧ sepGit.isPrefixOf d = false
                     then s else sepGit ++ s))) ∧
    (∀ patterns, filterDiffByExcludePatterns (S "diff --git malformed\nstuff") patterns = []) ∧
    filterDiffByExcludePatterns (S "diff --git a/x.md b/x.md\n+hi") [] =
      S "diff --git a/x.md b/x.md\n+hi" ∧
    filterDiffByExcludePatterns (S "diff --git a/x.md b/x.md\n+hi") [S "*.md"] = [] := by
  refine ⟨?_, ?_, ?_, by decide, by decide⟩
  · intro d p first s hx
    simp only [keepSection]
    by_cases htr : trimWs s = []
    · rw [if_pos htr]
    · rw [if_neg htr, hx]
  · intro d p first s path htr hx
    simp only [keepSection]
    rw [if_neg htr, hx]
  · intro patterns
    rfl

/-- C3 witness: the two general cases of the amended statement at concrete
inputs — the malformed section of the counterexample is dropped, and the
`x.md` section is removed under `*.md` but pushed (with its separator
re-attached) under no patterns. -/
theorem filterDiff_path_extraction_behavior_witness :
    keepSection (S "diff --git malformed\nstuff") [S "*.md"] (S "")
      (S "malformed\nstuff") = none ∧
    keepSection (S "diff --git a/x.md b/x.md\n+hi") [S "*.md"] (S "")
      (S "a/x.md b/x.md\n+hi") = none ∧
    keepSection (S "diff --git a/x.md b/x.md\n+hi") [] (S "")
      (S "a/x.md b/x.md\n+hi") = some (S "diff --git a/x.md b/x.md\n+hi") := by
  refine ⟨?_, ?_, ?_⟩
  · exact filterDiff_path_extraction_behavior.1
      (S "diff --git malformed\nstuff") [S "*.md"] (S "") (S "malformed\nstuff")
      (by decide)
  · have h := filterDiff_path_extraction_behavior.2.1
      (S "diff --git a/x.md b/x.md\n+hi") [S "*.md"] (S "")
      (S "a/x.md b/x.md\n+hi") (S "x.md") (by decide) (by decide)
    rw [h, if_pos (by decide : isMatch (S "x.md") [S "*.md"] = true)]
  · have h := filterDiff_path_extraction_behavior.2.1
      (S "diff --git a/x.md b/x.md\n+hi") [] (S "")
      (S "a/x.md b/x.md\n+hi") (S "x.md") (by decide) (by decide)
    rw [h, if_neg (by decide : ¬ isMatch (S "x.md") ([] : List (List Char)) = true)]
    decide

/-- C7 counterexample: on the patch `@@ -1,1 +1,1 @@` / `-old` / `+new`, the
resolver of src/github/comments.ts fails for target new-file line 2 (the
new file of this hunk has a single line), contradicting "resolving a
comment that targets new-file line 2 succeeds". -/
theorem findPositionInDiff_scenario4_line2_fails :
    findPositionInDiff (some (S "@@ -1,1 +1,1 @@\n-old\n+new")) 2 = none := by
  decide

/-- C7 (amended): on the patch `@@ -1,1 +1,1 @@` / `-old` / `+new`, target
line 2 resolves successfully only under the part_004 resolver (which also
counts the deletion line), yielding diff line 3 with side `RIGHT`; the
comments.ts resolver and the part_005 resolver fail for line 2, and target
line 99 fails everywhere. -/
theorem scenario4_resolution :
    getLineInfoFromDiffP4 (some (S "@@ -1,1 +1,1 @@\n-old\n+new")) 2 =
      some (3, Side.RIGHT) ∧
    getLineInfoFromDiffP4 (some (S "@@ -1,1 +1,1 @@\n-old\n+new")) 99 = none ∧
    findPositionInDiff (some (S "@@ -1,1 +1,1 @@\n-old\n+new")) 99 = none ∧
    getLineInfoFromDiffP5 (some (S "@@ -1,1 +1,1 @@\n-old\n+new")) 2 = none := by
  exact ⟨by decide, by decide, by decide, by decide⟩

/-- A line beginning `@@` begins with neither a space, a plus nor a minus. -/
theorem startsAtAt_excludes_markers {line : List Char} (h : startsAtAt line = true) :
    lineStartsWith ' ' line = false ∧ lineStartsWith '+' line = false := by
  match line with
  | [] => simp [startsAtAt] at h
  | [x] => simp [startsAtAt] at h
  | x :: y :: r =>
    simp only [startsAtAt, Bool.and_eq_true, decide_eq_true_eq] at h
    obtain ⟨hx, hy⟩ := h
    subst hx
    simp [lineStartsWith]

/-- C1 counterexample: on the patch `@@ -5,2 +7,2 @@` / ` x` / ` y`, the
spec's walking algorithm resolves target new-file line 8 to position 3, but
the resolver of src/github/comments.ts returns `null` — it never resets its
counter at the hunk header. -/
theorem findPositionInDiff_no_hunk_reset :
    findPositionInDiff (some (S "@@ -5,2 +7,2 @@\n x\n y")) 8 = none ∧
    specResolver (S "@@ -5,2 +7,2 @@\n x\n y") 8 = some (3, Side.RIGHT) := by
  exact ⟨by decide, by decide⟩

theorem getLineInfoLoopP5_eq_specWalk (t : Int) :
    ∀ (lines : List (List Char)) (i cur : Int),
      getLineInfoLoopP5 t lines i cur = specWalk t lines (i + 1) cur := by
  intro lines
  induction lines with
  | nil => intro i cur; rfl
  | cons line rest ih =>
    intro i cur
    by_cases hat : startsAtAt line
    · cases hsearch : searchHunkNewStart line with
      | some ns =>
        simp only [getLineInfoLoopP5, specWalk, hat, if_true, hsearch]
        rw [ih]
      | none =>
        have hmk := startsAtAt_excludes_markers hat
        simp only [getLineInfoLoopP5, specWalk, hat, if_true, hsearch,
          hmk.1, hmk.2, Bool.or_self, Bool.false_eq_true, if_false]
        rw [ih]
    · simp only [getLineInfoLoopP5, specWalk, hat, Bool.false_eq_true, if_false]
      rcases hpl : lineStartsWith '+' line <;>
        rcases hsp : lineStartsWith ' ' line <;>
          simp only [hpl, hsp, Bool.or_false, Bool.or_true, Bool.true_or,
            Bool.false_or, Bool.false_eq_true, if_false, if_true] <;>
        rw [ih]

/-- C1 (amended): the part_005 resolver `getLineInfoFromDiff` follows the
spec's walking algorithm exactly — for every patch and target line it
returns the same result as the specified walk (position of the matched
physical line, 1-based over all patch lines, side `RIGHT`); the comments.ts
resolver `findPositionInDiff` omits the hunk-header reset (see the
counterexample). -/
theorem getLineInfoFromDiffP5_follows_spec :
    ∀ (patch : List Char) (targetLine : Int),
      getLineInfoFromDiffP5 (some patch) targetLine = specResolver patch targetLine := by
  intro patch t
  by_cases hp : patch = []
  · subst hp; rfl
  · simp only [getLineInfoFromDiffP5, specResolver, hp, if_false]
    have := getLineInfoLoopP5_eq_specWalk t (splitOnList nlSep patch) 0 0
    simpa using this

/-! ## Claims C8, C10, C2 -/

/-- C8 counterexample: with the exclusion pattern `*.md`, the post-filter
keeps all three comments — in particular the line comment on
`docs/README.md` is NOT removed, because `*` does not cross the `/` path
separator. -/
theorem filterComments_md_pattern_keeps_docs :
    filterCommentsByExcludePatterns [docsComment, prLevelComment, testJsComment]
      [S "*.md"] = [docsComment, prLevelComment, testJsComment] := by
  decide

/-- C8 (amended): the post-filter drops exactly those line comments whose
file glob-matches some exclusion pattern, never drops a PR comment, and
preserves the original relative order (it is a sublist); with pattern
`*.md` the line comment on `docs/README.md` survives (a segment-crossing
pattern such as `**/*.md` is needed to remove it), while the PR comment and
the `test.js` comment always survive. -/
theorem filterComments_exclusion_behavior :
    (∀ (comments : List CommentT) (patterns : List (List Char)) (b : List Char),
       CommentT.pr b ∈ filterCommentsByExcludePatterns comments patterns ↔
         CommentT.pr b ∈ comments) ∧
    (∀ (comments : List CommentT) (patterns : List (List Char))
       (f : List Char) (l : Int) (b : List Char) (ci : Option (List Char)),
       CommentT.line f l b ci ∈ filterCommentsByExcludePatterns comments patterns ↔
         CommentT.line f l b ci ∈ comments ∧ isMatch f patterns = false) ∧
    (∀ (comments : List CommentT) (patterns : List (List Char)),
       List.Sublist (filterCommentsByExcludePatterns comments patterns) comments) ∧
    filterCommentsByExcludePatterns [docsComment, prLevelComment, testJsComment]
      [S "**/*.md"] = [prLevelComment, testJsComment] := by
  refine ⟨?_, ?_, ?_, by decide⟩
  · intro comments patterns b
    simp [filterCommentsByExcludePatterns, List.mem_filter]
  · intro comments patterns f l b ci
    simp [filterCommentsByExcludePatterns, List.mem_filter]
  · intro comments patterns
    exact List.filter_sublist _

theorem truthy_str_trueOfNonEmpty : truthy (.str (S "line")) = true := by decide

theorem strictEqStr_line_line : strictEqStr (some (.str (S "line"))) (S "line") = true := by
  decide

/-- C10: the per-entry check for type `"line"` tests only the presence of
the `file` and `line` keys, not their values — any object entry with type
`"line"`, a truthy body, and both keys present is accepted and its field
values are emitted unchanged. -/
theorem validateOne_line_checks_presence_only :
    ∀ (fields : List (List Char × JsValue)),
      lookupField fields typeKey = some (.str (S "line")) →
      truthyOpt (lookupField fields bodyKey) = true →
      fields.any (fun kv => kv.1 == fileKey) = true →
      fields.any (fun kv => kv.1 == lineKey) = true →
      validateOne (.obj fields) = .ok (some (.line
        (lookupField fields fileKey)
        (lookupField fields lineKey)
        (lookupField fields bodyKey)
        (if fields.any (fun kv => kv.1 == commitIdKey)
         then lookupField fields commitIdKey else none))) := by
  intro fields htype hbody hfile hline
  cases hlkb : lookupField fields bodyKey with
  | none => rw [hlkb] at hbody; simp [truthyOpt] at hbody
  | some bv =>
    rw [hlkb] at hbody
    have hbv : truthy bv = true := hbody
    by_cases hc : fields.any (fun kv => kv.1 == commitIdKey) <;>
      simp [validateOne, getProp, hasProp, htype, hlkb, hbv, hfile, hline, hc,
        truthyOpt, truthy_str_trueOfNonEmpty, strictEqStr_line_line,
        Bind.bind, Except.bind, pure, Except.pure]

/-- C10 witness: the entry with `file = ""` and `line = 0` is accepted and
emitted unchanged. -/
theorem validateOne_line_checks_presence_only_witness :
    validateOne (.obj lineEntryEx) = .ok (some (.line
      (some (.str [])) (some (.num 0)) (some (.str (S "ok"))) none)) := by
  exact validateOne_line_checks_presence_only lineEntryEx rfl rfl rfl rfl

theorem parseErrorHead_ne_nil : parseErrorHead ≠ [] := by decide

/-- Any thrown error surfaces as the empty-comments fallback record. -/
theorem parseResponse_of_error {jsonParse : List Char → Except (List Char) JsValue}
    {response msg : List Char} (h : parseResponseE jsonParse response = .error msg) :
    parseResponse jsonParse response = ⟨[], .str (parseErrorHead ++ msg)⟩ := by
  simp [parseResponse, h]

/-- When the response is not parseable as JSON with a `comments` array, the
`try` body throws. -/
theorem lacks_implies_parseResponseE_error
    (jsonParse : List Char → Except (List Char) JsValue) (response : List Char)
    (h : lacksCommentsArray jsonParse response = true) :
    ∃ msg, parseResponseE jsonParse response = .error msg := by
  unfold parseResponseE
  cases hjp : jsonParse (stripCodeBlock response) with
  | error e => exact ⟨e, by simp [hjp, Bind.bind, Except.bind]⟩
  | ok v =>
    cases v with
    | null =>
      exact ⟨S "Cannot read properties of null",
        by simp [hjp, Bind.bind, Except.bind, getProp]⟩
    | bool b =>
      exact ⟨invalidFormatMsg, by simp [hjp, Bind.bind, Except.bind, getProp,
        truthyOpt, throw, throwThe, MonadExceptOf.throw]⟩
    | num n =>
      exact ⟨invalidFormatMsg, by simp [hjp, Bind.bind, Except.bind, getProp,
        truthyOpt, throw, throwThe, MonadExceptOf.throw]⟩
    | str s =>
      exact ⟨invalidFormatMsg, by simp [hjp, Bind.bind, Except.bind, getProp,
        truthyOpt, throw, throwThe, MonadExceptOf.throw]⟩
    | arr elems =>
      exact ⟨invalidFormatMsg, by simp [hjp, Bind.bind, Except.bind, getProp,
        truthyOpt, throw, throwThe, MonadExceptOf.throw]⟩
    | obj fields =>
      refine ⟨invalidFormatMsg, ?_⟩
      cases hlk : lookupField fields commentsKey with
      | none =>
        simp [hjp, hlk, Bind.bind, Except.bind, getProp, truthyOpt, throw,
          throwThe, MonadExceptOf.throw]
      | some w =>
        cases w with
        | arr cs =>
          exfalso
          simp [lacksCommentsArray, hjp, hlk] at h
        | null =>
          simp [hjp, hlk, Bind.bind, Except.bind, getProp, truthyOpt, truthy,
            throw, throwThe, MonadExceptOf.throw]
        | bool b =>
          simp only [hjp, hlk, Bind.bind, Except.bind, getProp]
          split <;> rfl
        | num n =>
          simp only [hjp, hlk, Bind.bind, Except.bind, getProp]
          split <;> rfl
        | str s =>
          simp only [hjp, hlk, Bind.bind, Except.bind, getProp]
          split <;> rfl
        | obj fields2 =>
          simp only [hjp, hlk, Bind.bind, Except.bind, getProp]
          split <;> rfl

/-- C2: `parseResponse` is total by construction, and whenever the input is
not parseable as JSON with a `comments` array, the result has an empty
comment list and a non-empty summary string that embeds the failure
reason. -/
theorem parseResponse_failure_yields_empty_comments :
    ∀ (jsonParse : List Char → Except (List Char) JsValue) (response : List Char),
      lacksCommentsArray jsonParse response = true →
      (parseResponse jsonParse response).comments = [] ∧
      ∃ reason, (parseResponse jsonParse response).summary =
          .str (parseErrorHead ++ reason) ∧ parseErrorHead ++ reason ≠ [] := by
  intro jsonParse response h
  obtain ⟨msg, hmsg⟩ := lacks_implies_parseResponseE_error jsonParse response h
  rw [parseResponse_of_error hmsg]
  refine ⟨rfl, msg, rfl, ?_⟩
  intro heq
  exact parseErrorHead_ne_nil (List.append_eq_nil.mp heq).1

/-- C2 witness: the empty (garbage) response under a throwing parse yields
the fallback with a non-empty summary embedding the reason. -/
theorem parseResponse_failure_yields_empty_comments_witness :
    lacksCommentsArray jsonParseStub (S "") = true ∧
    ((parseResponse jsonParseStub (S "")).comments = [] ∧
     ∃ reason, (parseResponse jsonParseStub (S "")).summary =
         .str (parseErrorHead ++ reason) ∧ parseErrorHead ++ reason ≠ []) := by
  exact ⟨rfl, parseResponse_failure_yields_empty_comments jsonParseStub (S "") rfl⟩

/-! ## Claim C6: idempotence of the diff pre-filter

Every section the filter keeps is re-emitted as `"diff --git " ++ s` where
`s` is a piece of the split (hence contains no occurrence of the
separator).  Splitting the concatenation of such blocks recovers exactly
the kept pieces, because the separator has no non-trivial border, so a
second filtering pass keeps everything. -/

theorem sepGit_ne_nil : sepGit ≠ [] := by decide

/-- `"diff --git "` has no non-trivial border: no proper non-empty suffix
is one of its prefixes. -/
theorem sepGit_noBorder :
    ∀ j, j < sepGit.length → 0 < j → (sepGit.drop j).isPrefixOf sepGit = false := by
  decide

theorem occurs_nil_of_ne_nil {sep : List Char} (hsep : sep ≠ []) :
    occurs sep [] = false := by
  cases sep with
  | nil => exact absurd rfl hsep
  | cons a as => rfl

/-- The first piece of a split is a prefix of the input. -/
theorem splitOnList_head_pre (sep : List Char) (hsep : sep ≠ []) :
    ∀ n s, s.length ≤ n →
      ∃ q qs, splitOnList sep s = q :: qs ∧ q <+: s := by
  intro n
  induction n with
  | zero =>
    intro s hn
    have hs : s = [] := List.length_eq_zero.mp (Nat.le_zero.mp hn)
    subst hs
    exact ⟨[], [], splitOnList_nil sep, List.nil_prefix⟩
  | succ n ih =>
    intro s hn
    cases s with
    | nil => exact ⟨[], [], splitOnList_nil sep, List.nil_prefix⟩
    | cons c rest =>
      by_cases hp : sep.isPrefixOf (c :: rest)
      · obtain ⟨t, ht⟩ := List.isPrefixOf_iff_prefix.mp hp
        refine ⟨[], splitOnList sep t, ?_, List.nil_prefix⟩
        rw [← ht, splitOnList_sep_append sep hsep t]
      · obtain ⟨q, qs, hsplit, hpre⟩ := ih rest (by simpa using Nat.le_of_succ_le_succ hn)
        refine ⟨c :: q, qs, ?_, List.cons_prefix_cons.mpr ⟨rfl, hpre⟩⟩
        rw [splitOnList_cons_of_not_pre sep hsep c rest hp, hsplit]
        rfl

/-- No piece produced by a split contains an occurrence of the separator. -/
theorem mem_splitOnList_not_occurs (sep : List Char) (hsep : sep ≠ []) :
    ∀ n s, s.length ≤ n → ∀ q ∈ splitOnList sep s, occurs sep q = false := by
  intro n
  induction n with
  | zero =>
    intro s hn q hq
    have hs : s = [] := List.length_eq_zero.mp (Nat.le_zero.mp hn)
    subst hs
    rw [splitOnList_nil] at hq
    simp only [List.mem_singleton] at hq
    subst hq
    exact occurs_nil_of_ne_nil hsep
  | succ n ih =>
    intro s hn q hq
    cases s with
    | nil =>
      rw [splitOnList_nil] at hq
      simp only [List.mem_singleton] at hq
      subst hq
      exact occurs_nil_of_ne_nil hsep
    | cons c rest =>
      by_cases hp : sep.isPrefixOf (c :: rest)
      · obtain ⟨t, ht⟩ := List.isPrefixOf_iff_prefix.mp hp
        rw [← ht, splitOnList_sep_append sep hsep t] at hq
        have htlen : t.length ≤ n := by
          have hl := congrArg List.length ht
          simp only [List.length_append, List.length_cons] at hl
          have hsl : 1 ≤ sep.length := by
            cases sep with
            | nil => exact absurd rfl hsep
            | cons _ _ => simp
          have := hn
          simp only [List.length_cons] at this
          omega
        rcases List.mem_cons.mp hq with hq1 | hq2
        · subst hq1; exact occurs_nil_of_ne_nil hsep
        · exact ih t htlen q hq2
      · obtain ⟨q0, qs0, hsplit, hpre0⟩ :=
          splitOnList_head_pre sep hsep n rest (by simpa using Nat.le_of_succ_le_succ hn)
        rw [splitOnList_cons_of_not_pre sep hsep c rest hp, hsplit] at hq
        have hrlen : rest.length ≤ n := by simpa using Nat.le_of_succ_le_succ hn
        simp only [consHead, List.mem_cons] at hq
        rcases hq with hq1 | hq2
        · subst hq1
          have hq0 : occurs sep q0 = false :=
            ih rest hrlen q0 (hsplit ▸ List.mem_cons_self q0 qs0)
          have hnp : sep.isPrefixOf (c :: q0) = false := by
            cases hb : sep.isPrefixOf (c :: q0) with
            | false => rfl
            | true =>
              exfalso
              apply hp
              have h1 : sep <+: c :: q0 := List.isPrefixOf_iff_prefix.mp hb
              have h2 : c :: q0 <+: c :: rest := List.cons_prefix_cons.mpr ⟨rfl, hpre0⟩
              exact List.isPrefixOf_iff_prefix.mpr (h1.trans h2)
          simp [occurs, hnp, hq0]
        · exact ih rest hrlen q (hsplit ▸ List.mem_cons_of_mem q0 hq2)

/-- Because the separator has no non-trivial border, it cannot occur
straddling the boundary between a clean piece and a following separator. -/
theorem sep_not_pre_of_no_straddle (sep : List Char)
    (hnb : ∀ j, j < sep.length → 0 < j → (sep.drop j).isPrefixOf sep = false)
    {t : List Char} (ht : t ≠ []) (hocc : occurs sep t = false) (r : List Char) :
    sep.isPrefixOf (t ++ (sep ++ r)) = false := by
  cases hb : sep.isPrefixOf (t ++ (sep ++ r)) with
  | false => rfl
  | true =>
    exfalso
    have hpre : sep <+: t ++ (sep ++ r) := List.isPrefixOf_iff_prefix.mp hb
    rcases le_or_lt sep.length t.length with hle | hlt
    · have hsub : sep <+: t := by
        have h1 : sep = (t ++ (sep ++ r)).take sep.length := List.prefix_iff_eq_take.mp hpre
        have h2 : (t ++ (sep ++ r)).take sep.length =
            t.take sep.length ++ (sep ++ r).take (sep.length - t.length) :=
          List.take_append_eq_append_take
        rw [Nat.sub_eq_zero_of_le hle] at h2
        simp only [List.take_zero, List.append_nil] at h2
        rw [h1.trans h2]
        exact List.take_prefix _ _
      have h3 : occurs sep t = true :=
        occurs_of_isPrefixOf (List.isPrefixOf_iff_prefix.mpr hsub)
      rw [hocc] at h3
      exact Bool.false_ne_true h3
    · have htp : t <+: sep :=
        List.prefix_of_prefix_length_le (List.prefix_append t (sep ++ r)) hpre
          (le_of_lt hlt)
      obtain ⟨u, hu⟩ := htp
      have hu2 : u <+: sep ++ r := by
        have h4 := hpre
        nth_rewrite 1 [← hu] at h4
        exact (List.prefix_append_right_inj t).mp h4
      have hulen : u.length ≤ sep.length := by
        have := congrArg List.length hu
        simp only [List.length_append] at this
        omega
      have hus : u <+: sep :=
        List.prefix_of_prefix_length_le hu2 (List.prefix_append sep r) hulen
      have hud : u = sep.drop t.length := by
        have h5 := congrArg (List.drop t.length) hu
        rw [List.drop_left] at h5
        exact h5
      have hj := hnb t.length hlt (List.length_pos.mpr ht)
      rw [← hud] at hj
      have h6 : u.isPrefixOf sep = true := List.isPrefixOf_iff_prefix.mpr hus
      rw [hj] at h6
      exact Bool.false_ne_true h6

/-- Splitting a clean block followed by a separator peels off the block. -/
theorem splitOnList_block (sep : List Char) (hsep : sep ≠ [])
    (hnb : ∀ j, j < sep.length → 0 < j → (sep.drop j).isPrefixOf sep = false) :
    ∀ t, occurs sep t = false →
      ∀ r, splitOnList sep (t ++ (sep ++ r)) = t :: splitOnList sep r := by
  intro t
  induction t with
  | nil =>
    intro _ r
    simpa using splitOnList_sep_append sep hsep r
  | cons c t' ih =>
    intro hocc r
    have ht' := occurs_tail_of_not_occurs hocc
    have hnp : sep.isPrefixOf ((c :: t') ++ (sep ++ r)) = false :=
      sep_not_pre_of_no_straddle sep hnb (List.cons_ne_nil c t') hocc r
    have hcons : (c :: t') ++ (sep ++ r) = c :: (t' ++ (sep ++ r)) := rfl
    rw [hcons] at hnp
    rw [hcons, splitOnList_cons_of_not_pre sep hsep c (t' ++ (sep ++ r)) (by simp [hnp]),
      ih ht' r]
    rfl

/-- Splitting a separator-free string is the identity. -/
theorem splitOnList_singleton_of_not_occurs (sep : List Char) (hsep : sep ≠ []) :
    ∀ s, occurs sep s = false → splitOnList sep s = [s] := by
  intro s
  induction s with
  | nil => intro _; exact splitOnList_nil sep
  | cons c rest ih =>
    intro hocc
    have hnp : sep.isPrefixOf (c :: rest) = false := not_isPrefixOf_of_not_occurs hocc
    rw [splitOnList_cons_of_not_pre sep hsep c rest (by simp [hnp]),
      ih (occurs_tail_of_not_occurs hocc)]
    rfl

/-- Splitting a join of prefixed clean blocks recovers the blocks (with the
leading empty piece of the split). -/
theorem splitOnList_flattenBlocks :
    ∀ L, L ≠ [] → (∀ s ∈ L, occurs sepGit s = false) →
      splitOnList sepGit (flattenBlocks L) = [] :: L := by
  intro L
  induction L with
  | nil => intro h _; exact absurd rfl h
  | cons s L' ih =>
    intro _ hocc
    cases L' with
    | nil =>
      have hfb : flattenBlocks [s] = sepGit ++ s := by simp [flattenBlocks]
      rw [hfb, splitOnList_sep_append sepGit sepGit_ne_nil s,
        splitOnList_singleton_of_not_occurs sepGit sepGit_ne_nil s
          (hocc s (List.mem_cons_self s []))]
    | cons s2 L'' =>
      have hfb : flattenBlocks (s :: s2 :: L'') =
          sepGit ++ (s ++ (sepGit ++ (s2 ++ flattenBlocks L''))) := by
        simp [flattenBlocks]
      have hfb2 : flattenBlocks (s2 :: L'') = sepGit ++ (s2 ++ flattenBlocks L'') := by
        simp [flattenBlocks]
      have hIH := ih (List.cons_ne_nil s2 L'')
        (fun x hx => hocc x (List.mem_cons_of_mem s hx))
      rw [hfb2, splitOnList_sep_append sepGit sepGit_ne_nil] at hIH
      have hIH' : splitOnList sepGit (s2 ++ flattenBlocks L'') = s2 :: L'' := by
        simpa using hIH
      rw [hfb, splitOnList_sep_append sepGit sepGit_ne_nil,
        splitOnList_block sepGit sepGit_ne_nil sepGit_noBorder s
          (hocc s (List.mem_cons_self s (s2 :: L''))) (s2 ++ flattenBlocks L''), hIH']

theorem filterMap_eq_map_of_mem {α β : Type} (f : α → Option β) (g : α → β) :
    ∀ l : List α, (∀ a ∈ l, f a = some (g a)) → l.filterMap f = l.map g := by
  intro l
  induction l with
  | nil => intro _; rfl
  | cons a l' ih =>
    intro h
    simp only [List.filterMap_cons, h a (List.mem_cons_self a l'), List.map_cons,
      ih (fun x hx => h x (List.mem_cons_of_mem a hx))]

theorem markerA_decomp : markerA = sepGit ++ S "a/" := by decide

theorem occurs_append_left : ∀ {a b s : List Char},
    occurs (a ++ b) s = true → occurs a s = true := by
  intro a b s
  induction s with
  | nil =>
    intro h
    cases a with
    | nil => rfl
    | cons x xs => simp [occurs, List.isPrefixOf] at h
  | cons c rest ih =>
    intro h
    simp only [occurs, Bool.or_eq_true] at h ⊢
    rcases h with h1 | h2
    · left
      have hp : a ++ b <+: c :: rest := List.isPrefixOf_iff_prefix.mp h1
      exact List.isPrefixOf_iff_prefix.mpr ((List.prefix_append a b).trans hp)
    · right; exact ih h2

theorem extractFilePath_some_occurs :
    ∀ s p, extractFilePath s = some p → occurs markerA s = true := by
  intro s
  induction s with
  | nil => intro p h; simp [extractFilePath] at h
  | cons c rest ih =>
    intro p h
    simp only [occurs, Bool.or_eq_true]
    by_cases hp : markerA.isPrefixOf (c :: rest)
    · left; exact hp
    · right
      simp only [extractFilePath] at h
      rw [if_neg hp] at h
      simp only [] at h
      exact ih p h

theorem extractFilePath_none_of_not_occurs {s : List Char}
    (h : occurs sepGit s = false) : extractFilePath s = none := by
  cases hx : extractFilePath s with
  | none => rfl
  | some p =>
    exfalso
    have h1 := extractFilePath_some_occurs s p hx
    rw [markerA_decomp] at h1
    have h2 := occurs_append_left h1
    rw [h] at h2
    exact Bool.false_ne_true h2

/-- A kept section is processed with the separator re-attached and
satisfies `keptProps`. -/
theorem keepSection_some (d : List Char) (p : List (List Char)) (first : List Char)
    {s ps : List Char} (hocc : occurs sepGit s = false)
    (hk : keepSection d p first s = some ps) :
    ps = sepGit ++ s ∧ keptProps p s := by
  simp only [keepSection] at hk
  by_cases htr : trimWs s = []
  · rw [if_pos htr] at hk; exact absurd hk (by simp)
  · rw [if_neg htr] at hk
    by_cases hcond : s = first ∧ sepGit.isPrefixOf d = false
    · rw [if_pos hcond] at hk
      rw [extractFilePath_none_of_not_occurs hocc] at hk
      exact absurd hk (by simp)
    · rw [if_neg hcond] at hk
      cases hx : extractFilePath (sepGit ++ s) with
      | none => rw [hx] at hk; exact absurd hk (by simp)
      | some path =>
        rw [hx] at hk
        by_cases hm : isMatch path p
        · simp [hm] at hk
        · simp only [hm, Bool.false_eq_true, if_false, Option.some.injEq] at hk
          exact ⟨hk.symm, hocc, htr, path, hx, by simpa using hm⟩

/-- First pass: the filtered output is a join of prefixed kept sections. -/
theorem filterDiff_pass1 (d : List Char) (p : List (List Char)) (first : List Char) :
    ∀ l : List (List Char), (∀ s ∈ l, occurs sepGit s = false) →
      ∃ L : List (List Char),
        l.filterMap (keepSection d p first) = L.map (fun s => sepGit ++ s) ∧
        ∀ s ∈ L, keptProps p s := by
  intro l
  induction l with
  | nil => intro _; exact ⟨[], rfl, fun s hs => absurd hs (List.not_mem_nil s)⟩
  | cons s l' ih =>
    intro h
    obtain ⟨L', hmap, hprops⟩ := ih (fun x hx => h x (List.mem_cons_of_mem s hx))
    cases hk : keepSection d p first s with
    | none => exact ⟨L', by simp [List.filterMap_cons, hk, hmap], hprops⟩
    | some ps =>
      obtain ⟨hps, hkp⟩ := keepSection_some d p first (h s (List.mem_cons_self s l')) hk
      refine ⟨s :: L', ?_, ?_⟩
      · simp [List.filterMap_cons, hk, hmap, hps]
      · intro x hx
        rcases List.mem_cons.mp hx with hx1 | hx2
        · subst hx1; exact hkp
        · exact hprops x hx2

/-- Second pass: filtering the join of kept sections is the identity. -/
theorem filterDiff_pass2 (p : List (List Char)) :
    ∀ L : List (List Char), (∀ s ∈ L, keptProps p s) →
      filterDiffByExcludePatterns (flattenBlocks L) p = flattenBlocks L := by
  intro L hL
  cases L with
  | nil => rfl
  | cons s L' =>
    have hocc : ∀ x ∈ s :: L', occurs sepGit x = false := fun x hx => (hL x hx).1
    have hsplit := splitOnList_flattenBlocks (s :: L') (List.cons_ne_nil s L') hocc
    have hkeep : ∀ x ∈ s :: L',
        keepSection (flattenBlocks (s :: L')) p [] x = some (sepGit ++ x) := by
      intro x hx
      obtain ⟨_, htr, path, hxp, hm⟩ := hL x hx
      have hxe : x ≠ [] := by
        intro he
        exact htr (by rw [he]; rfl)
      simp only [keepSection]
      rw [if_neg htr, if_neg (by intro hc; exact hxe hc.1), hxp]
      simp [hm]
    simp only [filterDiffByExcludePatterns]
    rw [hsplit]
    simp only [List.headD_cons, if_pos rfl, if_true, ite_true, List.drop_one,
      List.tail_cons]
    rw [filterMap_eq_map_of_mem _ _ (s :: L') hkeep]
    rfl

/-- C6: the diff pre-filter is idempotent — filtering an already filtered
diff with the same patterns changes nothing. -/
theorem filterDiff_idempotent :
    ∀ (d : List Char) (p : List (List Char)),
      filterDiffByExcludePatterns (filterDiffByExcludePatterns d p) p =
        filterDiffByExcludePatterns d p := by
  intro d p
  have hsec : ∀ s ∈ (if (splitOnList sepGit d).headD [] = []
      then (splitOnList sepGit d).drop 1 else splitOnList sepGit d),
      occurs sepGit s = false := by
    intro s hs
    have hmem : s ∈ splitOnList sepGit d := by
      by_cases hh : (splitOnList sepGit d).headD [] = []
      · rw [if_pos hh] at hs; exact List.drop_subset 1 _ hs
      · rw [if_neg hh] at hs; exact hs
    exact mem_splitOnList_not_occurs sepGit sepGit_ne_nil d.length d (le_refl _) s hmem
  obtain ⟨L, hmap, hprops⟩ :=
    filterDiff_pass1 d p ((splitOnList sepGit d).headD []) _ hsec
  have hout : filterDiffByExcludePatterns d p = flattenBlocks L := by
    simp only [filterDiffByExcludePatterns]
    rw [hmap]
    rfl
  rw [hout]
  exact filterDiff_pass2 p L hprops

end Musashi
